import Mathlib

/-!
Verification of the `pstream` backtracking recursive-descent parsing engine
(`src/lib.rs`).  The engine is embedded shallowly:

* the input text is a `List Char`; positions are byte offsets (`usize` in the
  source), so advancing by a token moves by the token's UTF-8 byte length;
* `Sink` owns the append-only event log and the memo table; the Rust
  `HashMap` is modelled as an association list where insertion conses a new
  entry in front and lookup takes the first hit, which is observationally the
  same as `HashMap::insert` overwriting the previous entry;
* the trait objects (`ParseLet`) form a closed world of seven rules
  (`Primitive`, `Factor1`, `Factor2`, `Factor`, `Term1`, `Term2`, `Term`), so
  the dynamic dispatch becomes a `Rule` inductive;
* the mutual recursion of `Parser::parse` with the rule bodies is made total
  with a fuel parameter: `parseTx fuel` returns `none` exactly when the fuel
  runs out, and a theorem shows that fuel linear in the input length always
  suffices.
-/

/-- Total UTF-8 byte length of a character list (Rust `str::len`). -/
def utf8Len : List Char → Nat
  | [] => 0
  | c :: cs => c.utf8Size + utf8Len cs

/-- The suffix of `cs` starting at byte offset `n`, or `none` when `n` does
not fall on a character boundary (where Rust `&s[n..]` would panic). -/
def byteSuffix : List Char → Nat → Option (List Char)
  | cs, 0 => some cs
  | [], _ + 1 => none
  | c :: cs, n + 1 =>
    if c.utf8Size ≤ n + 1 then byteSuffix cs (n + 1 - c.utf8Size) else none

/-- The event log entries (`enum Event` in the source). -/
inductive Event where
  | start (name : String) (position : Nat)
  | commit
  | abort
  | consume (token : List Char)
  | reference (ref : Nat)
  deriving DecidableEq, Repr

/-- `struct Sink`: the append-only log plus the memo table.  The memo is an
association list; lookup takes the first entry, so consing models
`HashMap::insert`'s overwriting. -/
structure Sink where
  log : List Event
  memo : List ((String × Nat) × Nat)
  deriving DecidableEq, Repr

/-- `Sink::default()`. -/
def sinkEmpty : Sink := ⟨[], []⟩

/-- First-match lookup in the memo association list (`HashMap::get`). -/
def memoFind : List ((String × Nat) × Nat) → String × Nat → Option Nat
  | [], _ => none
  | (k, v) :: rest, key => if key = k then some v else memoFind rest key

/-- `Sink::start`: records the new event's index in the memo, then appends a
`Start` event. -/
def sinkStart (s : Sink) (name : String) (position : Nat) : Sink :=
  ⟨s.log ++ [Event.start name position], ((name, position), s.log.length) :: s.memo⟩

/-- `Sink::commit`. -/
def sinkCommit (s : Sink) : Sink := ⟨s.log ++ [Event.commit], s.memo⟩

/-- `Sink::abort`. -/
def sinkAbort (s : Sink) : Sink := ⟨s.log ++ [Event.abort], s.memo⟩

/-- `struct Parser`: the input text and the byte-offset cursor. -/
structure ParserSt where
  input : List Char
  position : Nat
  deriving DecidableEq, Repr

/-- `Parser::remaining`: the suffix of the input from the cursor.  Reachable
states always sit on a character boundary (proved below), where `byteSuffix`
is `some`; the `[]` default never fires there. -/
def remaining (p : ParserSt) : List Char :=
  (byteSuffix p.input p.position).getD []

/-- `Parser::eat`: if the remaining input starts with `token`, log a
`Consume` event and advance the cursor by the token's byte length. -/
def eat (p : ParserSt) (token : List Char) (s : Sink) : Bool × ParserSt × Sink :=
  if token.isPrefixOf (remaining p) then
    (true, ⟨p.input, p.position + utf8Len token⟩, ⟨s.log ++ [Event.consume token], s.memo⟩)
  else
    (false, p, s)

/-- The digit characters of the `'0' | ... | '9'` or-pattern in
`Primitive::parse`. -/
def isAsciiDigit (c : Char) : Bool :=
  ['0', '1', '2', '3', '4', '5', '6', '7', '8', '9'].contains c

/-- `Primitive::parse`: match one leading digit; the digit is consumed via
`eat` with the single-codepoint slice, and the `eat` result is discarded. -/
def primParse (p : ParserSt) (s : Sink) : Bool × ParserSt × Sink :=
  match remaining p with
  | [] => (false, p, s)
  | c :: _ =>
    if isAsciiDigit c then
      let r := eat p [c] s
      (true, r.2.1, r.2.2)
    else
      (false, p, s)

/-- The closed world of grammar rules (`impl ParseLet for ...`). -/
inductive Rule where
  | prim | factor1 | factor2 | factor | term1 | term2 | term
  deriving DecidableEq, Repr

/-- `ParseLet::name` for each rule. -/
def ruleName : Rule → String
  | .prim => "prim"
  | .factor1 => "factor(1)"
  | .factor2 => "factor(2)"
  | .factor => "factor"
  | .term1 => "term(1)"
  | .term2 => "term(2)"
  | .term => "term"

/-- The commit/abort wrapper of `Parser::parse`: on success keep the advanced
cursor and log a `Commit`; on failure restore the snapshot and log an
`Abort`. -/
def txWrap (p : ParserSt) (o : Option (Bool × ParserSt × Sink)) :
    Option (Bool × ParserSt × Sink) :=
  match o with
  | none => none
  | some (true, p', s') => some (true, p', sinkCommit s')
  | some (false, _, s') => some (false, p, sinkAbort s')

/-- A sequence rule body `parse(r1) && eat(tok) && parse(r2)`
(`Factor1::parse`, `Term1::parse`), abstracted over the transactional parse
`px`.  `&&` short-circuits, leaving the state as mutated so far. -/
def seqParse (px : Rule → ParserSt → Sink → Option (Bool × ParserSt × Sink))
    (r1 : Rule) (tok : List Char) (r2 : Rule) (p : ParserSt) (s : Sink) :
    Option (Bool × ParserSt × Sink) :=
  match px r1 p s with
  | none => none
  | some (false, p1, s1) => some (false, p1, s1)
  | some (true, p1, s1) =>
    match eat p1 tok s1 with
    | (false, p2, s2) => some (false, p2, s2)
    | (true, p2, s2) => px r2 p2 s2

/-- An ordered-choice rule body `parse(r1) || parse(r2)` (`Factor::parse`,
`Term::parse`). -/
def altParse (px : Rule → ParserSt → Sink → Option (Bool × ParserSt × Sink))
    (r1 r2 : Rule) (p : ParserSt) (s : Sink) :
    Option (Bool × ParserSt × Sink) :=
  match px r1 p s with
  | none => none
  | some (true, p1, s1) => some (true, p1, s1)
  | some (false, p1, s1) => px r2 p1 s1

/-- Dispatch to the `ParseLet::parse` body of each rule, abstracted over the
transactional parse `px` used for sub-rules. -/
def ruleBody (px : Rule → ParserSt → Sink → Option (Bool × ParserSt × Sink))
    (r : Rule) (p : ParserSt) (s : Sink) : Option (Bool × ParserSt × Sink) :=
  match r with
  | .prim => some (primParse p s)
  | .factor1 => seqParse px .prim ['*'] .factor p s
  | .factor2 => px .prim p s
  | .factor => altParse px .factor1 .factor2 p s
  | .term1 => seqParse px .factor ['+'] .term p s
  | .term2 => px .factor p s
  | .term => altParse px .term1 .term2 p s

/-- `Parser::parse`, the transactional attempt operation, with a fuel
parameter making the mutual recursion with the rule bodies total: snapshot
the parser, log a `Start`, run the rule body, then commit (keeping the
cursor) or abort (restoring the snapshot). -/
def parseTx : Nat → Rule → ParserSt → Sink → Option (Bool × ParserSt × Sink)
  | 0, _, _, _ => none
  | f + 1, r, p, s =>
    txWrap p (ruleBody (fun r' p' s' => parseTx f r' p' s') r p
      (sinkStart s (ruleName r) p.position))

/-- `ParseLet::parse` at fuel `f`: the rule body with sub-rules run through
`parseTx f`. -/
def ruleParse (f : Nat) (r : Rule) (p : ParserSt) (s : Sink) :
    Option (Bool × ParserSt × Sink) :=
  ruleBody (fun r' p' s' => parseTx f r' p' s') r p s

theorem parseTx_succ (f : Nat) (r : Rule) (p : ParserSt) (s : Sink) :
    parseTx (f + 1) r p s =
      txWrap p (ruleParse f r p (sinkStart s (ruleName r) p.position)) := rfl

/-! ### Byte-offset theory -/

theorem utf8Len_append (a b : List Char) :
    utf8Len (a ++ b) = utf8Len a + utf8Len b := by
  induction a with
  | nil => simp [utf8Len]
  | cons c a ih => simp [utf8Len, ih, Nat.add_assoc]

theorem byteSuffix_zero (l : List Char) : byteSuffix l 0 = some l := by
  cases l <;> rfl

theorem byteSuffix_cons_succ (c : Char) (cs : List Char) (n : Nat) :
    byteSuffix (c :: cs) (n + 1) =
      if c.utf8Size ≤ n + 1 then byteSuffix cs (n + 1 - c.utf8Size) else none := rfl

theorem byteSuffix_append (t r : List Char) :
    byteSuffix (t ++ r) (utf8Len t) = some r := by
  induction t with
  | nil => simpa [utf8Len] using byteSuffix_zero r
  | cons c t ih =>
    have hpos : 0 < c.utf8Size := Char.utf8Size_pos c
    obtain ⟨m, hm⟩ : ∃ m, c.utf8Size + utf8Len t = m + 1 :=
      ⟨c.utf8Size + utf8Len t - 1, by omega⟩
    show byteSuffix (c :: (t ++ r)) (utf8Len (c :: t)) = some r
    rw [show utf8Len (c :: t) = m + 1 from hm]
    rw [byteSuffix_cons_succ]
    have hle : c.utf8Size ≤ m + 1 := by omega
    rw [if_pos hle, show m + 1 - c.utf8Size = utf8Len t by omega]
    exact ih

theorem byteSuffix_eq_some {input r : List Char} {pos : Nat}
    (h : byteSuffix input pos = some r) :
    ∃ t, input = t ++ r ∧ pos = utf8Len t := by
  induction input generalizing pos with
  | nil =>
    cases pos with
    | zero =>
      rw [byteSuffix_zero] at h
      exact ⟨[], by simpa using h, rfl⟩
    | succ n => simp [byteSuffix] at h
  | cons c cs ih =>
    cases pos with
    | zero =>
      rw [byteSuffix_zero] at h
      exact ⟨[], by simpa using h, rfl⟩
    | succ n =>
      rw [byteSuffix_cons_succ] at h
      by_cases hle : c.utf8Size ≤ n + 1
      · rw [if_pos hle] at h
        obtain ⟨t, ht, hpos⟩ := ih h
        exact ⟨c :: t, by simp [ht], by simp [utf8Len, ← hpos]; omega⟩
      · rw [if_neg hle] at h
        exact absurd h (by simp)

theorem byteSuffix_some_len {input r : List Char} {pos : Nat}
    (h : byteSuffix input pos = some r) :
    utf8Len input = pos + utf8Len r := by
  obtain ⟨t, rfl, rfl⟩ := byteSuffix_eq_some h
  simp [utf8Len_append]

/-- The cursor sits on a character boundary of the input (so `remaining`'s
slice is well-defined). -/
def ValidPos (input : List Char) (pos : Nat) : Prop :=
  (byteSuffix input pos).isSome = true

instance (input : List Char) (pos : Nat) : Decidable (ValidPos input pos) := by
  unfold ValidPos; infer_instance

theorem validPos_le {input : List Char} {pos : Nat} (h : ValidPos input pos) :
    pos ≤ utf8Len input := by
  obtain ⟨r, hr⟩ := Option.isSome_iff_exists.mp h
  have := byteSuffix_some_len hr
  omega

theorem remaining_eq {p : ParserSt} {r : List Char}
    (h : byteSuffix p.input p.position = some r) : remaining p = r := by
  simp [remaining, h]

theorem remaining_advance {p : ParserSt} {t r' : List Char}
    (hv : ValidPos p.input p.position) (h : t ++ r' = remaining p) :
    byteSuffix p.input (p.position + utf8Len t) = some r' := by
  obtain ⟨r, hr⟩ := Option.isSome_iff_exists.mp hv
  rw [remaining_eq hr] at h
  obtain ⟨pre, hpre, hpos⟩ := byteSuffix_eq_some hr
  have : p.input = (pre ++ t) ++ r' := by rw [hpre, ← h]; simp
  rw [this, hpos, show utf8Len pre + utf8Len t = utf8Len (pre ++ t) from (utf8Len_append pre t).symm]
  exact byteSuffix_append (pre ++ t) r'

theorem remaining_nonempty_valid {p : ParserSt} (h : remaining p ≠ []) :
    ValidPos p.input p.position := by
  unfold remaining at h
  unfold ValidPos
  cases hb : byteSuffix p.input p.position with
  | none => rw [hb] at h; simp at h
  | some r => simp

/-! ### List prefix helpers (self-contained, `BEq Char` is lawful) -/

theorem isPrefixOf_exists {t r : List Char} (h : t.isPrefixOf r = true) :
    ∃ u, t ++ u = r := by
  induction t generalizing r with
  | nil => exact ⟨r, rfl⟩
  | cons c t ih =>
    cases r with
    | nil => simp [List.isPrefixOf] at h
    | cons d r' =>
      simp only [List.isPrefixOf, Bool.and_eq_true, beq_iff_eq] at h
      obtain ⟨u, hu⟩ := ih h.2
      exact ⟨u, by simp [h.1, hu]⟩

theorem isPrefixOf_append (t u : List Char) : t.isPrefixOf (t ++ u) = true := by
  induction t with
  | nil => cases u <;> rfl
  | cons c t ih => simp [List.isPrefixOf, ih]

/-! ### Characterization of `eat` -/

theorem eat_eq_true {p : ParserSt} {t : List Char} (s : Sink)
    (h : t.isPrefixOf (remaining p) = true) :
    eat p t s = (true, ⟨p.input, p.position + utf8Len t⟩,
      ⟨s.log ++ [Event.consume t], s.memo⟩) := by
  simp [eat, h]

theorem eat_eq_false {p : ParserSt} {t : List Char} (s : Sink)
    (h : t.isPrefixOf (remaining p) = false) :
    eat p t s = (false, p, s) := by
  simp [eat, h]

theorem eat_input (p : ParserSt) (t : List Char) (s : Sink) :
    (eat p t s).2.1.input = p.input := by
  unfold eat; split <;> rfl

theorem eat_pos_le (p : ParserSt) (t : List Char) (s : Sink) :
    p.position ≤ (eat p t s).2.1.position := by
  unfold eat; split <;> simp

theorem eat_memo (p : ParserSt) (t : List Char) (s : Sink) :
    (eat p t s).2.2.memo = s.memo := by
  unfold eat; split <;> rfl

theorem remaining_len_le {p : ParserSt} (hL : p.position ≤ utf8Len p.input) :
    p.position + utf8Len (remaining p) ≤ utf8Len p.input := by
  unfold remaining
  cases hb : byteSuffix p.input p.position with
  | none => simpa [utf8Len] using hL
  | some r =>
    have := byteSuffix_some_len hb
    simp; omega

theorem eat_len_le {p : ParserSt} (t : List Char) (s : Sink)
    (hL : p.position ≤ utf8Len p.input) :
    (eat p t s).2.1.position ≤ utf8Len (eat p t s).2.1.input := by
  rw [eat_input]
  unfold eat
  split
  · next h =>
    obtain ⟨u, hu⟩ := isPrefixOf_exists h
    have h1 : utf8Len t + utf8Len u = utf8Len (remaining p) := by
      rw [← hu, utf8Len_append]
    have h2 := remaining_len_le hL
    simp; omega
  · simpa using hL

theorem eat_valid {p : ParserSt} (t : List Char) (s : Sink)
    (hv : ValidPos p.input p.position) :
    ValidPos (eat p t s).2.1.input (eat p t s).2.1.position := by
  rw [eat_input]
  unfold eat
  split
  · next h =>
    obtain ⟨u, hu⟩ := isPrefixOf_exists h
    have := remaining_advance hv hu
    simp [ValidPos, this]
  · simpa using hv

/-! ### Characterization of `primParse` -/

theorem primParse_of_nil {p : ParserSt} (s : Sink) (h : remaining p = []) :
    primParse p s = (false, p, s) := by
  simp [primParse, h]

theorem primParse_of_nondigit {p : ParserSt} (s : Sink) {c : Char} {rest : List Char}
    (h : remaining p = c :: rest) (hc : isAsciiDigit c = false) :
    primParse p s = (false, p, s) := by
  simp [primParse, h, hc]

theorem primParse_of_digit {p : ParserSt} (s : Sink) {c : Char} {rest : List Char}
    (h : remaining p = c :: rest) (hc : isAsciiDigit c = true) :
    primParse p s = (true, ⟨p.input, p.position + c.utf8Size⟩,
      ⟨s.log ++ [Event.consume [c]], s.memo⟩) := by
  have hpre : [c].isPrefixOf (remaining p) = true := by
    rw [h]; exact isPrefixOf_append [c] rest
  simp [primParse, h, hc, eat_eq_true s hpre, utf8Len]

/-! ### Well-nested event logs -/

/-- `Start` events open a rule attempt. -/
def isOpenEv : Event → Bool
  | .start _ _ => true
  | _ => false

/-- `Commit` and `Abort` events close the nearest open rule attempt. -/
def isCloseEv : Event → Bool
  | .commit => true
  | .abort => true
  | _ => false

def countOpen (l : List Event) : Nat := (l.filter isOpenEv).length

def countClose (l : List Event) : Nat := (l.filter isCloseEv).length

theorem countOpen_nil : countOpen [] = 0 := rfl

theorem countClose_nil : countClose [] = 0 := rfl

theorem countOpen_append (a b : List Event) :
    countOpen (a ++ b) = countOpen a + countOpen b := by
  simp [countOpen, List.filter_append]

theorem countClose_append (a b : List Event) :
    countClose (a ++ b) = countClose a + countClose b := by
  simp [countClose, List.filter_append]

theorem countOpen_cons (e : Event) (l : List Event) :
    countOpen (e :: l) = (if isOpenEv e then 1 else 0) + countOpen l := by
  simp [countOpen, List.filter_cons]
  split <;> simp [Nat.add_comm]

theorem countClose_cons (e : Event) (l : List Event) :
    countClose (e :: l) = (if isCloseEv e then 1 else 0) + countClose l := by
  simp [countClose, List.filter_cons]
  split <;> simp [Nat.add_comm]

theorem countOpen_singleton (e : Event) :
    countOpen [e] = if isOpenEv e then 1 else 0 := by
  rw [countOpen_cons, countOpen_nil]
  omega

theorem countClose_singleton (e : Event) :
    countClose [e] = if isCloseEv e then 1 else 0 := by
  rw [countClose_cons, countClose_nil]
  omega

@[simp] theorem isOpenEv_start (n : String) (pos : Nat) :
    isOpenEv (.start n pos) = true := rfl

@[simp] theorem isCloseEv_start (n : String) (pos : Nat) :
    isCloseEv (.start n pos) = false := rfl

/-- A log fragment is balanced when its `Start`s and `Commit`/`Abort`s pair
up exactly and no prefix closes more attempts than it has opened. -/
def BalancedLog (l : List Event) : Prop :=
  countOpen l = countClose l ∧
    ∀ pre suf, l = pre ++ suf → countClose pre ≤ countOpen pre

theorem balanced_nil : BalancedLog [] := by
  constructor
  · rfl
  · intro pre suf h
    have : pre = [] := by
      cases pre with
      | nil => rfl
      | cons x q => simp at h
    simp [this, countOpen_nil, countClose_nil]

theorem balanced_single {e : Event} (ho : isOpenEv e = false)
    (hc : isCloseEv e = false) : BalancedLog [e] := by
  constructor
  · simp [countOpen, countClose, List.filter, ho, hc]
  · intro pre suf h
    cases pre with
    | nil => simp [countOpen_nil, countClose_nil]
    | cons x q =>
      rw [List.cons_append] at h
      obtain ⟨hx, hq⟩ := List.cons.inj h
      have hq' : q = [] := by
        cases q with
        | nil => rfl
        | cons y ys => simp at hq
      subst hx hq'
      simp [countOpen_cons, countClose_cons, ho, hc, countOpen_nil, countClose_nil]

theorem balanced_append {a b : List Event} (ha : BalancedLog a) (hb : BalancedLog b) :
    BalancedLog (a ++ b) := by
  constructor
  · simp [countOpen_append, countClose_append, ha.1, hb.1]
  · intro pre suf h
    rcases List.append_eq_append_iff.mp h.symm with ⟨x, hx1, hx2⟩ | ⟨x, hx1, hx2⟩
    · -- a = pre ++ x : pre is a prefix of a
      exact ha.2 pre x hx1
    · -- pre = a ++ x, b = x ++ suf
      subst hx1
      have h1 := hb.2 x suf hx2
      simp [countOpen_append, countClose_append, ha.1]
      omega

theorem balanced_wrap {Δ : List Event} (n : String) (pos : Nat) {e : Event}
    (he : isCloseEv e = true) (hΔ : BalancedLog Δ) :
    BalancedLog (Event.start n pos :: (Δ ++ [e])) := by
  have heo : isOpenEv e = false := by
    cases e <;> simp_all [isOpenEv, isCloseEv]
  constructor
  · rw [countOpen_cons, countClose_cons, countOpen_append, countClose_append,
      countOpen_singleton, countClose_singleton, he, heo]
    simp [hΔ.1]
    omega
  · intro pre suf h
    cases pre with
    | nil => simp [countOpen_nil, countClose_nil]
    | cons x q =>
      rw [List.cons_append] at h
      obtain ⟨hx, hq⟩ := List.cons.inj h
      subst hx
      rcases List.append_eq_append_iff.mp hq.symm with ⟨y, hy1, hy2⟩ | ⟨y, hy1, hy2⟩
      · -- Δ = q ++ y : q is a prefix of Δ
        have h1 := hΔ.2 q y hy1
        simp [countOpen_cons, countClose_cons, isOpenEv, isCloseEv]
        omega
      · -- q = Δ ++ y, [e] = y ++ suf
        subst hy1
        cases y with
        | nil =>
          simp [countOpen_cons, countClose_cons, countOpen_append,
            countClose_append, isOpenEv, isCloseEv, hΔ.1]
        | cons z zs =>
          rw [List.cons_append] at hy2
          obtain ⟨hz, hzs⟩ := List.cons.inj hy2
          have hzs' : zs = [] := by
            cases zs with
            | nil => rfl
            | cons w ws => simp at hzs
          subst hz hzs'
          rw [countOpen_cons, countClose_cons, countOpen_append, countClose_append,
            countOpen_singleton, countClose_singleton, he, heo]
          simp [hΔ.1]
          omega

/-- Executable well-nestedness check: scan the log tracking the number of
currently open `Start`s; a `Commit`/`Abort` at depth zero fails, and the scan
must end at depth zero. -/
def nestOK : Nat → List Event → Bool
  | d, [] => d == 0
  | d, e :: rest =>
    if isCloseEv e then
      match d with
      | 0 => false
      | d' + 1 => nestOK d' rest
    else if isOpenEv e then nestOK (d + 1) rest
    else nestOK d rest

theorem nestOK_of_counts :
    ∀ (l : List Event) (d : Nat),
      (∀ pre suf, l = pre ++ suf → countClose pre ≤ d + countOpen pre) →
      d + countOpen l = countClose l →
      nestOK d l = true := by
  intro l
  induction l with
  | nil =>
    intro d _ htot
    simp [countOpen_nil, countClose_nil] at htot
    simp [nestOK, htot]
  | cons e rest ih =>
    intro d hpre htot
    by_cases hc : isCloseEv e = true
    · have hd : 1 ≤ d := by
        have := hpre [e] rest rfl
        simpa [countOpen_cons, countClose_cons, hc,
          (by cases e <;> simp_all [isOpenEv, isCloseEv] : isOpenEv e = false),
          countOpen_nil, countClose_nil] using this
      obtain ⟨d', rfl⟩ : ∃ d', d = d' + 1 := ⟨d - 1, by omega⟩
      have ho : isOpenEv e = false := by
        cases e <;> simp_all [isOpenEv, isCloseEv]
      simp only [nestOK, hc, if_pos]
      apply ih
      · intro pre suf hps
        have := hpre (e :: pre) suf (by rw [hps, List.cons_append])
        simp [countOpen_cons, countClose_cons, hc, ho] at this
        omega
      · have : countOpen (e :: rest) = countOpen rest := by
          simp [countOpen_cons, ho]
        have h2 : countClose (e :: rest) = 1 + countClose rest := by
          simp [countClose_cons, hc]
        omega
    · have hc' : isCloseEv e = false := by simpa using hc
      by_cases ho : isOpenEv e = true
      · simp only [nestOK, hc', Bool.false_eq_true, if_neg, ho, if_pos]
        apply ih
        · intro pre suf hps
          have := hpre (e :: pre) suf (by rw [hps, List.cons_append])
          simp [countOpen_cons, countClose_cons, hc', ho] at this
          omega
        · have h1 : countOpen (e :: rest) = 1 + countOpen rest := by
            simp [countOpen_cons, ho]
          have h2 : countClose (e :: rest) = countClose rest := by
            simp [countClose_cons, hc']
          omega
      · have ho' : isOpenEv e = false := by simpa using ho
        simp only [nestOK, hc', Bool.false_eq_true, if_neg, ho', if_neg]
        apply ih
        · intro pre suf hps
          have := hpre (e :: pre) suf (by rw [hps, List.cons_append])
          simp [countOpen_cons, countClose_cons, hc', ho'] at this
          omega
        · have h1 : countOpen (e :: rest) = countOpen rest := by
            simp [countOpen_cons, ho']
          have h2 : countClose (e :: rest) = countClose rest := by
            simp [countClose_cons, hc']
          omega

theorem nestOK_of_balanced {l : List Event} (h : BalancedLog l) : nestOK 0 l = true := by
  apply nestOK_of_counts
  · intro pre suf hps
    simpa using h.2 pre suf hps
  · simpa using h.1

/-! ### The memo-table invariant -/

/-- The memo table maps every key that has ever been started to the log
index of the most recent `Start` event for that key: the log entry at the
stored index is a `Start` with exactly that name and position, no later log
entry is a `Start` for the same key, and every key that appears in a `Start`
event is present in the table. -/
def MemoInv (s : Sink) : Prop :=
  (∀ name pos i, memoFind s.memo (name, pos) = some i →
      s.log[i]? = some (Event.start name pos) ∧
        ∀ j e, i < j → s.log[j]? = some e → e ≠ Event.start name pos)
  ∧ ∀ name pos, Event.start name pos ∈ s.log →
      (memoFind s.memo (name, pos)).isSome = true

theorem memoInv_empty : MemoInv sinkEmpty := by
  constructor
  · intro name pos i h
    simp [memoFind, sinkEmpty] at h
  · intro name pos h
    simp [sinkEmpty] at h

theorem memoFind_cons_self (m : List ((String × Nat) × Nat)) (k : String × Nat)
    (v : Nat) : memoFind ((k, v) :: m) k = some v := by
  simp [memoFind]

theorem memoFind_cons_ne (m : List ((String × Nat) × Nat)) {k k' : String × Nat}
    (v : Nat) (h : k' ≠ k) : memoFind ((k, v) :: m) k' = memoFind m k' := by
  simp [memoFind, h]

theorem memoInv_push {s : Sink} (e : Event)
    (he : ∀ n p, e ≠ Event.start n p) (h : MemoInv s) :
    MemoInv ⟨s.log ++ [e], s.memo⟩ := by
  constructor
  · intro name pos i hf
    obtain ⟨h1, h2⟩ := h.1 name pos i hf
    have hi : i < s.log.length := (List.getElem?_eq_some.mp h1).1
    refine ⟨by rw [List.getElem?_append_left hi]; exact h1, ?_⟩
    intro j ev hij hj
    by_cases hjl : j < s.log.length
    · exact h2 j ev hij (by rwa [List.getElem?_append_left hjl] at hj)
    · by_cases hje : j = s.log.length
      · subst hje
        rw [List.getElem?_concat_length] at hj
        obtain rfl : e = ev := Option.some.inj hj
        exact he name pos
      · rw [List.getElem?_eq_none (by simp; omega)] at hj
        cases hj
  · intro name pos hmem
    rcases List.mem_append.mp hmem with hmem | hmem
    · exact h.2 name pos hmem
    · rw [List.mem_singleton] at hmem
      exact absurd hmem.symm (he name pos)

theorem memoInv_start {s : Sink} (n : String) (pos : Nat) (h : MemoInv s) :
    MemoInv (sinkStart s n pos) := by
  constructor
  · intro name pos' i hf
    by_cases hk : ((name, pos') : String × Nat) = (n, pos)
    · obtain ⟨rfl, rfl⟩ := Prod.mk.inj hk
      rw [show sinkStart s name pos' =
        ⟨s.log ++ [Event.start name pos'], ((name, pos'), s.log.length) :: s.memo⟩
        from rfl] at hf ⊢
      rw [memoFind_cons_self] at hf
      obtain rfl : s.log.length = i := Option.some.inj hf
      refine ⟨List.getElem?_concat_length _ _, ?_⟩
      intro j ev hij hj
      rw [List.getElem?_eq_none (by simp; omega)] at hj
      cases hj
    · rw [show sinkStart s n pos =
        ⟨s.log ++ [Event.start n pos], ((n, pos), s.log.length) :: s.memo⟩
        from rfl] at hf ⊢
      rw [memoFind_cons_ne _ _ hk] at hf
      obtain ⟨h1, h2⟩ := h.1 name pos' i hf
      have hi : i < s.log.length := (List.getElem?_eq_some.mp h1).1
      refine ⟨by rw [List.getElem?_append_left hi]; exact h1, ?_⟩
      intro j ev hij hj
      by_cases hjl : j < s.log.length
      · exact h2 j ev hij (by rwa [List.getElem?_append_left hjl] at hj)
      · by_cases hje : j = s.log.length
        · subst hje
          rw [List.getElem?_concat_length] at hj
          obtain rfl : Event.start n pos = ev := Option.some.inj hj
          intro hcontra
          obtain ⟨rfl, rfl⟩ := Event.start.inj hcontra
          exact hk rfl
        · rw [List.getElem?_eq_none (by simp; omega)] at hj
          cases hj
  · intro name pos' hmem
    rcases List.mem_append.mp hmem with hmem | hmem
    · by_cases hk : ((name, pos') : String × Nat) = (n, pos)
      · rw [show (sinkStart s n pos).memo = ((n, pos), s.log.length) :: s.memo
          from rfl, ← hk, memoFind_cons_self]
        rfl
      · rw [show (sinkStart s n pos).memo = ((n, pos), s.log.length) :: s.memo
          from rfl, memoFind_cons_ne _ _ hk]
        exact h.2 name pos' hmem
    · rw [List.mem_singleton] at hmem
      obtain ⟨rfl, rfl⟩ := Event.start.inj hmem
      rw [show (sinkStart s name pos').memo = ((name, pos'), s.log.length) :: s.memo
        from rfl, memoFind_cons_self]
      rfl

/-! ### Executable form of the memo invariant -/

/-- Executable check of the memo invariant for one key. -/
def keyOK (s : Sink) (k : String × Nat) : Bool :=
  match memoFind s.memo k with
  | none => false
  | some i =>
    (match s.log[i]? with
     | some (Event.start n p) => decide (n = k.1 ∧ p = k.2)
     | _ => false)
    && (s.log.drop (i + 1)).all (fun e => decide (e ≠ Event.start k.1 k.2))

/-- Executable check of the whole memo invariant. -/
def memoInvB (s : Sink) : Bool :=
  (s.memo.map Prod.fst).all (keyOK s)
    && s.log.all (fun e =>
        match e with
        | Event.start n p => (memoFind s.memo (n, p)).isSome
        | _ => true)

theorem memoFind_some_mem_keys {m : List ((String × Nat) × Nat)}
    {k : String × Nat} {i : Nat} (h : memoFind m k = some i) :
    k ∈ m.map Prod.fst := by
  induction m with
  | nil => simp [memoFind] at h
  | cons kv rest ih =>
    obtain ⟨k', v'⟩ := kv
    by_cases hk : k = k'
    · simp [hk]
    · rw [memoFind_cons_ne _ _ hk] at h
      simp [ih h]

theorem mem_keys_memoFind_isSome {m : List ((String × Nat) × Nat)}
    {k : String × Nat} (h : k ∈ m.map Prod.fst) :
    (memoFind m k).isSome = true := by
  induction m with
  | nil => simp at h
  | cons kv rest ih =>
    obtain ⟨k', v'⟩ := kv
    by_cases hk : k = k'
    · subst hk
      rw [memoFind_cons_self]
      rfl
    · rw [memoFind_cons_ne _ _ hk]
      rcases List.mem_map.mp h with ⟨x, hx, hx2⟩
      rcases List.mem_cons.mp hx with rfl | hx
      · exact absurd hx2.symm hk
      · exact ih (List.mem_map.mpr ⟨x, hx, hx2⟩)

theorem memoInvB_iff (s : Sink) : memoInvB s = true ↔ MemoInv s := by
  constructor
  · intro h
    rw [memoInvB, Bool.and_eq_true] at h
    constructor
    · intro name pos i hf
      have hmem : ((name, pos) : String × Nat) ∈ s.memo.map Prod.fst :=
        memoFind_some_mem_keys hf
      have hk := List.all_eq_true.mp h.1 _ hmem
      rw [keyOK, hf, Bool.and_eq_true] at hk
      constructor
      · cases hg : s.log[i]? with
        | none => rw [hg] at hk; exact absurd hk.1 (by simp)
        | some ev =>
          rw [hg] at hk
          cases ev with
          | start n' p' =>
            have := of_decide_eq_true hk.1
            obtain ⟨rfl, rfl⟩ := this
            rfl
          | commit => exact absurd hk.1 (by simp)
          | abort => exact absurd hk.1 (by simp)
          | consume t => exact absurd hk.1 (by simp)
          | reference r => exact absurd hk.1 (by simp)
      · intro j ev hij hj
        have hdrop : ev ∈ s.log.drop (i + 1) := by
          have hg2 : (s.log.drop (i + 1))[j - (i + 1)]? = some ev := by
            rw [List.getElem?_drop, show i + 1 + (j - (i + 1)) = j by omega]
            exact hj
          exact List.getElem?_mem hg2
        have := List.all_eq_true.mp hk.2 _ hdrop
        exact of_decide_eq_true this
    · intro name pos hmem
      exact List.all_eq_true.mp h.2 _ hmem
  · intro h
    rw [memoInvB, Bool.and_eq_true]
    constructor
    · apply List.all_eq_true.mpr
      intro k hk
      have hs := mem_keys_memoFind_isSome hk
      obtain ⟨i, hi⟩ := Option.isSome_iff_exists.mp hs
      obtain ⟨hg, hlater⟩ := h.1 k.1 k.2 i (by rwa [show ((k.1, k.2) : String × Nat) = k from rfl])
      rw [keyOK, hi, Bool.and_eq_true]
      refine ⟨by rw [hg]; simp, ?_⟩
      apply List.all_eq_true.mpr
      intro e he'
      obtain ⟨m, hm⟩ := List.mem_iff_getElem?.mp he'
      rw [List.getElem?_drop] at hm
      exact decide_eq_true (hlater (i + 1 + m) e (by omega) hm)
    · apply List.all_eq_true.mpr
      intro e he'
      cases e with
      | start n p => exact h.2 n p he'
      | commit => rfl
      | abort => rfl
      | consume t => rfl
      | reference r => rfl

/-! ### The master step invariant -/

/-- Relation holding between the parser/sink before and after any engine
step: the input text is unchanged, the cursor only moves forward and stays
inside the input, character-boundary validity and the memo invariant are
preserved, and the appended log fragment is balanced. -/
structure StepInv (p : ParserSt) (s : Sink) (p' : ParserSt) (s' : Sink) : Prop where
  input_eq : p'.input = p.input
  pos_le : p.position ≤ p'.position
  len_le : p.position ≤ utf8Len p.input → p'.position ≤ utf8Len p'.input
  valid : ValidPos p.input p.position → ValidPos p'.input p'.position
  memo : MemoInv s → MemoInv s'
  log : ∃ Δ, s'.log = s.log ++ Δ ∧ BalancedLog Δ

theorem stepInv_refl (p : ParserSt) (s : Sink) : StepInv p s p s :=
  ⟨rfl, Nat.le_refl _, id, id, id, ⟨[], by simp, balanced_nil⟩⟩

theorem stepInv_trans {p s p1 s1 p2 s2} (h1 : StepInv p s p1 s1)
    (h2 : StepInv p1 s1 p2 s2) : StepInv p s p2 s2 := by
  refine ⟨h2.input_eq.trans h1.input_eq, Nat.le_trans h1.pos_le h2.pos_le,
    fun h => h2.len_le (h1.len_le h), fun h => h2.valid (h1.valid h),
    fun hm => h2.memo (h1.memo hm), ?_⟩
  · obtain ⟨Δ1, hΔ1, hb1⟩ := h1.log
    obtain ⟨Δ2, hΔ2, hb2⟩ := h2.log
    exact ⟨Δ1 ++ Δ2, by rw [hΔ2, hΔ1, List.append_assoc], balanced_append hb1 hb2⟩

theorem eat_memoInv (p : ParserSt) (t : List Char) (s : Sink) (h : MemoInv s) :
    MemoInv (eat p t s).2.2 := by
  unfold eat
  split
  · exact memoInv_push _ (by intro n pp; simp) h
  · exact h

theorem eat_logDelta (p : ParserSt) (t : List Char) (s : Sink) :
    ∃ Δ, (eat p t s).2.2.log = s.log ++ Δ ∧ BalancedLog Δ := by
  unfold eat
  split
  · exact ⟨[Event.consume t], rfl, balanced_single rfl rfl⟩
  · exact ⟨[], by simp, balanced_nil⟩

theorem eat_stepInv (p : ParserSt) (t : List Char) (s : Sink) :
    StepInv p s (eat p t s).2.1 (eat p t s).2.2 :=
  ⟨eat_input p t s, eat_pos_le p t s, eat_len_le t s, eat_valid t s,
    eat_memoInv p t s, eat_logDelta p t s⟩

theorem primParse_digit_eat {p : ParserSt} (s : Sink) {c : Char} {rest : List Char}
    (hrem : remaining p = c :: rest) (hc : isAsciiDigit c = true) :
    primParse p s = (true, (eat p [c] s).2.1, (eat p [c] s).2.2) := by
  simp [primParse, hrem, hc]

theorem primParse_stepInv (p : ParserSt) (s : Sink) :
    StepInv p s (primParse p s).2.1 (primParse p s).2.2 := by
  cases hrem : remaining p with
  | nil =>
    rw [primParse_of_nil s hrem]
    exact stepInv_refl p s
  | cons c rest =>
    by_cases hc : isAsciiDigit c
    · rw [primParse_digit_eat s hrem hc]
      exact eat_stepInv p [c] s
    · rw [primParse_of_nondigit s hrem (by simpa using hc)]
      exact stepInv_refl p s

theorem primParse_strict (p : ParserSt) (s : Sink)
    (h : (primParse p s).1 = true) :
    p.position < (primParse p s).2.1.position := by
  cases hrem : remaining p with
  | nil => rw [primParse_of_nil s hrem] at h; cases h
  | cons c rest =>
    by_cases hc : isAsciiDigit c
    · have hpre : [c].isPrefixOf (remaining p) = true := by
        rw [hrem]; exact isPrefixOf_append [c] rest
      rw [primParse_digit_eat s hrem hc, eat_eq_true s hpre]
      have := Char.utf8Size_pos c
      simp [utf8Len]
      omega
    · rw [primParse_of_nondigit s hrem (by simpa using hc)] at h
      cases h

/-- The invariant established by every completed `parseTx` call. -/
abbrev TxInv (f : Nat) : Prop :=
  ∀ r p s b p' s', parseTx f r p s = some (b, p', s') →
    StepInv p s p' s' ∧ (b = true → p.position < p'.position) ∧
      (b = false → p' = p)

/-- The invariant established by every completed rule body. -/
abbrev RuleInv (f : Nat) : Prop :=
  ∀ r p s b p' s', ruleParse f r p s = some (b, p', s') →
    StepInv p s p' s' ∧ (b = true → p.position < p'.position)

theorem seqParse_none {px : Rule → ParserSt → Sink → Option (Bool × ParserSt × Sink)}
    {r1 : Rule} {p : ParserSt} {s : Sink} (tok : List Char) (r2 : Rule)
    (h : px r1 p s = none) : seqParse px r1 tok r2 p s = none := by
  unfold seqParse
  rw [h]

theorem seqParse_fst_false {px : Rule → ParserSt → Sink → Option (Bool × ParserSt × Sink)}
    {r1 : Rule} {p p1 : ParserSt} {s s1 : Sink} (tok : List Char) (r2 : Rule)
    (h : px r1 p s = some (false, p1, s1)) :
    seqParse px r1 tok r2 p s = some (false, p1, s1) := by
  unfold seqParse
  rw [h]

theorem seqParse_eat_false {px : Rule → ParserSt → Sink → Option (Bool × ParserSt × Sink)}
    {r1 : Rule} {p p1 p2 : ParserSt} {s s1 s2 : Sink} {tok : List Char} (r2 : Rule)
    (h1 : px r1 p s = some (true, p1, s1)) (h2 : eat p1 tok s1 = (false, p2, s2)) :
    seqParse px r1 tok r2 p s = some (false, p2, s2) := by
  unfold seqParse
  simp only [h1, h2]

theorem seqParse_eat_true {px : Rule → ParserSt → Sink → Option (Bool × ParserSt × Sink)}
    {r1 : Rule} {p p1 p2 : ParserSt} {s s1 s2 : Sink} {tok : List Char} (r2 : Rule)
    (h1 : px r1 p s = some (true, p1, s1)) (h2 : eat p1 tok s1 = (true, p2, s2)) :
    seqParse px r1 tok r2 p s = px r2 p2 s2 := by
  unfold seqParse
  simp only [h1, h2]

theorem altParse_none {px : Rule → ParserSt → Sink → Option (Bool × ParserSt × Sink)}
    {r1 : Rule} {p : ParserSt} {s : Sink} (r2 : Rule)
    (h : px r1 p s = none) : altParse px r1 r2 p s = none := by
  unfold altParse
  rw [h]

theorem altParse_fst_true {px : Rule → ParserSt → Sink → Option (Bool × ParserSt × Sink)}
    {r1 : Rule} {p p1 : ParserSt} {s s1 : Sink} (r2 : Rule)
    (h : px r1 p s = some (true, p1, s1)) :
    altParse px r1 r2 p s = some (true, p1, s1) := by
  unfold altParse
  rw [h]

theorem altParse_fst_false {px : Rule → ParserSt → Sink → Option (Bool × ParserSt × Sink)}
    {r1 : Rule} {p p1 : ParserSt} {s s1 : Sink} (r2 : Rule)
    (h : px r1 p s = some (false, p1, s1)) :
    altParse px r1 r2 p s = px r2 p1 s1 := by
  unfold altParse
  rw [h]

theorem seqParse_inv {px : Rule → ParserSt → Sink → Option (Bool × ParserSt × Sink)}
    (hpx : ∀ r p s b p' s', px r p s = some (b, p', s') →
      StepInv p s p' s' ∧ (b = true → p.position < p'.position) ∧
        (b = false → p' = p))
    (r1 : Rule) (tok : List Char) (r2 : Rule) (p : ParserSt) (s : Sink)
    (b : Bool) (p' : ParserSt) (s' : Sink)
    (h : seqParse px r1 tok r2 p s = some (b, p', s')) :
    StepInv p s p' s' ∧ (b = true → p.position < p'.position) := by
  cases hx1 : px r1 p s with
  | none => rw [seqParse_none tok r2 hx1] at h; cases h
  | some x1 =>
    obtain ⟨b1, p1, s1⟩ := x1
    obtain ⟨inv1, strict1, rest1⟩ := hpx _ _ _ _ _ _ hx1
    cases b1 with
    | false =>
      rw [seqParse_fst_false tok r2 hx1] at h
      simp only [Option.some.injEq, Prod.mk.injEq] at h
      obtain ⟨rfl, rfl, rfl⟩ := h
      exact ⟨inv1, fun hb => Bool.noConfusion hb⟩
    | true =>
      rcases hE : eat p1 tok s1 with ⟨b2, p2, s2⟩
      have inv2 : StepInv p1 s1 p2 s2 := by
        have := eat_stepInv p1 tok s1
        rwa [hE] at this
      cases b2 with
      | false =>
        rw [seqParse_eat_false r2 hx1 hE] at h
        simp only [Option.some.injEq, Prod.mk.injEq] at h
        obtain ⟨rfl, rfl, rfl⟩ := h
        exact ⟨stepInv_trans inv1 inv2, fun hb => Bool.noConfusion hb⟩
      | true =>
        rw [seqParse_eat_true r2 hx1 hE] at h
        obtain ⟨inv3, strict3, rest3⟩ := hpx _ _ _ _ _ _ h
        refine ⟨stepInv_trans (stepInv_trans inv1 inv2) inv3, ?_⟩
        intro hb
        subst hb
        calc p.position < p1.position := strict1 rfl
          _ ≤ p2.position := inv2.pos_le
          _ ≤ p'.position := inv3.pos_le

theorem altParse_inv {px : Rule → ParserSt → Sink → Option (Bool × ParserSt × Sink)}
    (hpx : ∀ r p s b p' s', px r p s = some (b, p', s') →
      StepInv p s p' s' ∧ (b = true → p.position < p'.position) ∧
        (b = false → p' = p))
    (r1 r2 : Rule) (p : ParserSt) (s : Sink)
    (b : Bool) (p' : ParserSt) (s' : Sink)
    (h : altParse px r1 r2 p s = some (b, p', s')) :
    StepInv p s p' s' ∧ (b = true → p.position < p'.position) := by
  cases hx1 : px r1 p s with
  | none => rw [altParse_none r2 hx1] at h; cases h
  | some x1 =>
    obtain ⟨b1, p1, s1⟩ := x1
    obtain ⟨inv1, strict1, rest1⟩ := hpx _ _ _ _ _ _ hx1
    cases b1 with
    | true =>
      rw [altParse_fst_true r2 hx1] at h
      simp only [Option.some.injEq, Prod.mk.injEq] at h
      obtain ⟨rfl, rfl, rfl⟩ := h
      exact ⟨inv1, fun _ => strict1 rfl⟩
    | false =>
      rw [altParse_fst_false r2 hx1] at h
      obtain rfl : p1 = p := rest1 rfl
      obtain ⟨inv2, strict2, rest2⟩ := hpx _ _ _ _ _ _ h
      exact ⟨stepInv_trans inv1 inv2, strict2⟩

theorem ruleBody_inv {f : Nat} (htx : TxInv f) : RuleInv f := by
  intro r p s b p' s' h
  cases r with
  | prim =>
    have hP : ruleParse f .prim p s = some (primParse p s) := rfl
    rw [hP] at h
    rcases hp : primParse p s with ⟨b1, p1, s1⟩
    rw [hp] at h
    simp only [Option.some.injEq, Prod.mk.injEq] at h
    obtain ⟨rfl, rfl, rfl⟩ := h
    constructor
    · have := primParse_stepInv p s
      rwa [hp] at this
    · intro hb
      have := primParse_strict p s (by rw [hp]; exact hb)
      rwa [hp] at this
  | factor1 => exact seqParse_inv htx _ _ _ _ _ _ _ _ h
  | factor2 =>
    obtain ⟨inv, strict, _⟩ := htx _ _ _ _ _ _ h
    exact ⟨inv, strict⟩
  | factor => exact altParse_inv htx _ _ _ _ _ _ _ h
  | term1 => exact seqParse_inv htx _ _ _ _ _ _ _ _ h
  | term2 =>
    obtain ⟨inv, strict, _⟩ := htx _ _ _ _ _ _ h
    exact ⟨inv, strict⟩
  | term => exact altParse_inv htx _ _ _ _ _ _ _ h

theorem txStep_inv {f : Nat} (hrule : RuleInv f) : TxInv (f + 1) := by
  intro r p s b p' s' h
  rw [parseTx_succ] at h
  cases hrp : ruleParse f r p (sinkStart s (ruleName r) p.position) with
  | none => rw [hrp] at h; cases h
  | some x =>
    obtain ⟨b1, p1, s1⟩ := x
    rw [hrp] at h
    obtain ⟨inv1, strict1⟩ := hrule _ _ _ _ _ _ hrp
    obtain ⟨Δr, hΔr, hbr⟩ := inv1.log
    cases b1 with
    | true =>
      simp only [txWrap, Option.some.injEq, Prod.mk.injEq] at h
      obtain ⟨rfl, rfl, rfl⟩ := h
      refine ⟨⟨inv1.input_eq, inv1.pos_le, inv1.len_le, inv1.valid, ?_, ?_⟩,
        fun _ => strict1 rfl, fun hb => Bool.noConfusion hb⟩
      · intro hm
        exact memoInv_push _ (by intro n pp; simp) (inv1.memo (memoInv_start _ _ hm))
      · refine ⟨Event.start (ruleName r) p.position :: (Δr ++ [Event.commit]), ?_, ?_⟩
        · show (sinkCommit s1).log = _
          rw [show (sinkCommit s1).log = s1.log ++ [Event.commit] from rfl, hΔr]
          simp [sinkStart]
        · exact balanced_wrap _ _ rfl hbr
    | false =>
      simp only [txWrap, Option.some.injEq, Prod.mk.injEq] at h
      obtain ⟨rfl, rfl, rfl⟩ := h
      refine ⟨⟨rfl, Nat.le_refl _, id, id, ?_, ?_⟩,
        fun hb => Bool.noConfusion hb, fun _ => rfl⟩
      · intro hm
        exact memoInv_push _ (by intro n pp; simp) (inv1.memo (memoInv_start _ _ hm))
      · refine ⟨Event.start (ruleName r) p.position :: (Δr ++ [Event.abort]), ?_, ?_⟩
        · show (sinkAbort s1).log = _
          rw [show (sinkAbort s1).log = s1.log ++ [Event.abort] from rfl, hΔr]
          simp [sinkStart]
        · exact balanced_wrap _ _ rfl hbr

theorem txZero_inv : TxInv 0 := by
  intro r p s b p' s' h
  cases h

theorem parseTx_inv : ∀ f, TxInv f := by
  intro f
  induction f with
  | zero => exact txZero_inv
  | succ f ih => exact txStep_inv (ruleBody_inv ih)

theorem ruleParse_inv (f : Nat) : RuleInv f := ruleBody_inv (parseTx_inv f)

/-! ### Per-rule unfolding of `ruleParse` -/

theorem ruleParse_prim (f : Nat) (p : ParserSt) (s : Sink) :
    ruleParse f .prim p s = some (primParse p s) := rfl

theorem ruleParse_factor1 (f : Nat) (p : ParserSt) (s : Sink) :
    ruleParse f .factor1 p s =
      seqParse (fun r' p' s' => parseTx f r' p' s') .prim ['*'] .factor p s := rfl

theorem ruleParse_factor2 (f : Nat) (p : ParserSt) (s : Sink) :
    ruleParse f .factor2 p s = parseTx f .prim p s := rfl

theorem ruleParse_factor (f : Nat) (p : ParserSt) (s : Sink) :
    ruleParse f .factor p s =
      altParse (fun r' p' s' => parseTx f r' p' s') .factor1 .factor2 p s := rfl

theorem ruleParse_term1 (f : Nat) (p : ParserSt) (s : Sink) :
    ruleParse f .term1 p s =
      seqParse (fun r' p' s' => parseTx f r' p' s') .factor ['+'] .term p s := rfl

theorem ruleParse_term2 (f : Nat) (p : ParserSt) (s : Sink) :
    ruleParse f .term2 p s = parseTx f .factor p s := rfl

theorem ruleParse_term (f : Nat) (p : ParserSt) (s : Sink) :
    ruleParse f .term p s =
      altParse (fun r' p' s' => parseTx f r' p' s') .term1 .term2 p s := rfl

/-! ### Fuel adequacy: linear fuel always suffices -/

theorem txWrap_isSome (p : ParserSt) (o : Option (Bool × ParserSt × Sink)) :
    (txWrap p o).isSome = o.isSome := by
  cases o with
  | none => rfl
  | some x =>
    obtain ⟨b, p', s'⟩ := x
    cases b <;> rfl

theorem seqParse_isSome {px : Rule → ParserSt → Sink → Option (Bool × ParserSt × Sink)}
    {r1 : Rule} {tok : List Char} {r2 : Rule} {p : ParserSt} {s : Sink}
    (h1 : (px r1 p s).isSome = true)
    (h2 : ∀ p1 s1 p2 s2, px r1 p s = some (true, p1, s1) →
      eat p1 tok s1 = (true, p2, s2) → (px r2 p2 s2).isSome = true) :
    (seqParse px r1 tok r2 p s).isSome = true := by
  cases hx : px r1 p s with
  | none => rw [hx] at h1; simp at h1
  | some x =>
    obtain ⟨b1, p1, s1⟩ := x
    cases b1 with
    | false => rw [seqParse_fst_false tok r2 hx]; rfl
    | true =>
      rcases hE : eat p1 tok s1 with ⟨b2, p2, s2⟩
      cases b2 with
      | false => rw [seqParse_eat_false r2 hx hE]; rfl
      | true =>
        rw [seqParse_eat_true r2 hx hE]
        exact h2 p1 s1 p2 s2 hx hE

theorem altParse_isSome {px : Rule → ParserSt → Sink → Option (Bool × ParserSt × Sink)}
    {r1 r2 : Rule} {p : ParserSt} {s : Sink}
    (h1 : (px r1 p s).isSome = true)
    (h2 : ∀ p1 s1, px r1 p s = some (false, p1, s1) →
      (px r2 p1 s1).isSome = true) :
    (altParse px r1 r2 p s).isSome = true := by
  cases hx : px r1 p s with
  | none => rw [hx] at h1; simp at h1
  | some x =>
    obtain ⟨b1, p1, s1⟩ := x
    cases b1 with
    | true => rw [altParse_fst_true r2 hx]; rfl
    | false =>
      rw [altParse_fst_false r2 hx]
      exact h2 p1 s1 hx

theorem parseTx_prim_isSome (f : Nat) (p : ParserSt) (s : Sink) (hf : 1 ≤ f) :
    (parseTx f .prim p s).isSome = true := by
  obtain ⟨g, rfl⟩ : ∃ g, f = g + 1 := ⟨f - 1, by omega⟩
  rw [parseTx_succ, txWrap_isSome, ruleParse_prim]
  rfl

theorem parseTx_factor2_isSome (f : Nat) (p : ParserSt) (s : Sink) (hf : 2 ≤ f) :
    (parseTx f .factor2 p s).isSome = true := by
  obtain ⟨g, rfl⟩ : ∃ g, f = g + 1 := ⟨f - 1, by omega⟩
  rw [parseTx_succ, txWrap_isSome, ruleParse_factor2]
  exact parseTx_prim_isSome g _ _ (by omega)

theorem eat_true_pos {p1 p2 : ParserSt} {s1 s2 : Sink} {tok : List Char}
    (h : eat p1 tok s1 = (true, p2, s2)) :
    p2.input = p1.input ∧ p2.position = p1.position + utf8Len tok := by
  cases hpre : tok.isPrefixOf (remaining p1) with
  | false =>
    rw [eat_eq_false s1 hpre] at h
    simp at h
  | true =>
    rw [eat_eq_true s1 hpre] at h
    simp only [Prod.mk.injEq] at h
    obtain ⟨-, h2, -⟩ := h
    rw [← h2]
    exact ⟨rfl, rfl⟩

theorem parseTx_factor_isSome :
    ∀ rem (p : ParserSt) (s : Sink) (f : Nat),
      p.position ≤ utf8Len p.input → utf8Len p.input - p.position ≤ rem →
      2 * rem + 4 ≤ f → (parseTx f .factor p s).isSome = true := by
  intro rem
  induction rem using Nat.strong_induction_on with
  | _ rem ih =>
    intro p s f hL hrem hf
    have hfactor1 : ∀ (q : ParserSt) (t : Sink) (f' : Nat),
        q.position ≤ utf8Len q.input → utf8Len q.input - q.position ≤ rem →
        2 * rem + 3 ≤ f' → (parseTx f' .factor1 q t).isSome = true := by
      intro q t f' hqL hqrem hqf
      obtain ⟨g', rfl⟩ : ∃ g', f' = g' + 1 := ⟨f' - 1, by omega⟩
      rw [parseTx_succ, txWrap_isSome, ruleParse_factor1]
      apply seqParse_isSome
      · exact parseTx_prim_isSome g' q _ (by omega)
      · intro p1 s1 p2 s2 hprim hEat
        obtain ⟨inv1, strict1, -⟩ := parseTx_inv g' _ _ _ _ _ _ hprim
        have hp1L : p1.position ≤ utf8Len p1.input := inv1.len_le hqL
        have hstrict : q.position < p1.position := strict1 rfl
        obtain ⟨hEin, hEpos⟩ := eat_true_pos hEat
        have hEinv : StepInv p1 s1 p2 s2 := by
          have := eat_stepInv p1 ['*'] s1
          rwa [hEat] at this
        have hp2L : p2.position ≤ utf8Len p2.input := hEinv.len_le hp1L
        have htok : utf8Len ['*'] = 1 := by decide
        have hin12 : p2.input = q.input := by rw [hEin, inv1.input_eq]
        have hrem2 : utf8Len p2.input - p2.position ≤ rem - 2 := by
          rw [hin12, hEpos, htok]
          have : utf8Len p1.input = utf8Len q.input := by rw [inv1.input_eq]
          omega
        have hge2 : 2 ≤ rem := by
          rw [hin12] at hp2L
          rw [hEpos, htok] at hp2L
          omega
        exact ih (rem - 2) (by omega) p2 s2 g' hp2L hrem2 (by omega)
    obtain ⟨g, rfl⟩ : ∃ g, f = g + 1 := ⟨f - 1, by omega⟩
    rw [parseTx_succ, txWrap_isSome, ruleParse_factor]
    apply altParse_isSome
    · exact hfactor1 p _ g hL hrem (by omega)
    · intro p1 s1 hfail
      obtain ⟨-, -, hres⟩ := parseTx_inv g _ _ _ _ _ _ hfail
      obtain rfl : p1 = p := hres rfl
      exact parseTx_factor2_isSome g p1 s1 (by omega)

theorem parseTx_term2_isSome (rem : Nat) (p : ParserSt) (s : Sink) (f : Nat)
    (hL : p.position ≤ utf8Len p.input) (hrem : utf8Len p.input - p.position ≤ rem)
    (hf : 2 * rem + 5 ≤ f) : (parseTx f .term2 p s).isSome = true := by
  obtain ⟨g, rfl⟩ : ∃ g, f = g + 1 := ⟨f - 1, by omega⟩
  rw [parseTx_succ, txWrap_isSome, ruleParse_term2]
  exact parseTx_factor_isSome rem p _ g hL hrem (by omega)

theorem parseTx_term_isSome :
    ∀ rem (p : ParserSt) (s : Sink) (f : Nat),
      p.position ≤ utf8Len p.input → utf8Len p.input - p.position ≤ rem →
      2 * rem + 8 ≤ f → (parseTx f .term p s).isSome = true := by
  intro rem
  induction rem using Nat.strong_induction_on with
  | _ rem ih =>
    intro p s f hL hrem hf
    have hterm1 : ∀ (q : ParserSt) (t : Sink) (f' : Nat),
        q.position ≤ utf8Len q.input → utf8Len q.input - q.position ≤ rem →
        2 * rem + 7 ≤ f' → (parseTx f' .term1 q t).isSome = true := by
      intro q t f' hqL hqrem hqf
      obtain ⟨g', rfl⟩ : ∃ g', f' = g' + 1 := ⟨f' - 1, by omega⟩
      rw [parseTx_succ, txWrap_isSome, ruleParse_term1]
      apply seqParse_isSome
      · exact parseTx_factor_isSome rem q _ g' hqL hqrem (by omega)
      · intro p1 s1 p2 s2 hfac hEat
        obtain ⟨inv1, strict1, -⟩ := parseTx_inv g' _ _ _ _ _ _ hfac
        have hp1L : p1.position ≤ utf8Len p1.input := inv1.len_le hqL
        have hstrict : q.position < p1.position := strict1 rfl
        obtain ⟨hEin, hEpos⟩ := eat_true_pos hEat
        have hEinv : StepInv p1 s1 p2 s2 := by
          have := eat_stepInv p1 ['+'] s1
          rwa [hEat] at this
        have hp2L : p2.position ≤ utf8Len p2.input := hEinv.len_le hp1L
        have htok : utf8Len ['+'] = 1 := by decide
        have hin12 : p2.input = q.input := by rw [hEin, inv1.input_eq]
        have hrem2 : utf8Len p2.input - p2.position ≤ rem - 2 := by
          rw [hin12, hEpos, htok]
          have : utf8Len p1.input = utf8Len q.input := by rw [inv1.input_eq]
          omega
        have hge2 : 2 ≤ rem := by
          rw [hin12] at hp2L
          rw [hEpos, htok] at hp2L
          omega
        exact ih (rem - 2) (by omega) p2 s2 g' hp2L hrem2 (by omega)
    obtain ⟨g, rfl⟩ : ∃ g, f = g + 1 := ⟨f - 1, by omega⟩
    rw [parseTx_succ, txWrap_isSome, ruleParse_term]
    apply altParse_isSome
    · exact hterm1 p _ g hL hrem (by omega)
    · intro p1 s1 hfail
      obtain ⟨-, -, hres⟩ := parseTx_inv g _ _ _ _ _ _ hfail
      obtain rfl : p1 = p := hres rfl
      exact parseTx_term2_isSome rem p1 s1 g hL hrem (by omega)

/-! ### Determinism and sink-irrelevance

The boolean result, the final parser, and the appended log fragment of a
parse depend only on the parser state, never on the contents of the initial
sink (the event log is write-only during parsing). -/

/-- The observable outcome of a run relative to the initial log length
`n`: the boolean, the final parser, and the log entries appended after
position `n`. -/
def runView (n : Nat) (o : Option (Bool × ParserSt × Sink)) :
    Option (Bool × ParserSt × List Event) :=
  o.map (fun x => (x.1, x.2.1, x.2.2.log.drop n))

/-- Two runs produce the same outcome relative to their own initial sinks. -/
abbrev TxDet (f : Nat) : Prop :=
  ∀ r p (s₁ s₂ : Sink),
    runView s₁.log.length (parseTx f r p s₁) =
      runView s₂.log.length (parseTx f r p s₂)

abbrev RuleDet (f : Nat) : Prop :=
  ∀ r p (s₁ s₂ : Sink),
    runView s₁.log.length (ruleParse f r p s₁) =
      runView s₂.log.length (ruleParse f r p s₂)

theorem det_elim {n₁ n₂ : Nat} {o₁ o₂ : Option (Bool × ParserSt × Sink)}
    (h : runView n₁ o₁ = runView n₂ o₂) :
    (o₁ = none ∧ o₂ = none) ∨
      ∃ b q t₁ t₂, o₁ = some (b, q, t₁) ∧ o₂ = some (b, q, t₂) ∧
        t₁.log.drop n₁ = t₂.log.drop n₂ := by
  cases o₁ with
  | none =>
    cases o₂ with
    | none => exact Or.inl ⟨rfl, rfl⟩
    | some y => simp [runView] at h
  | some x =>
    cases o₂ with
    | none => simp [runView] at h
    | some y =>
      obtain ⟨b1, q1, t1⟩ := x
      obtain ⟨b2, q2, t2⟩ := y
      simp only [runView, Option.map_some', Option.some.injEq, Prod.mk.injEq] at h
      obtain ⟨rfl, rfl, hlog⟩ := h
      exact Or.inr ⟨b1, q1, t1, t2, rfl, rfl, hlog⟩

theorem parseTx_log_len {f : Nat} {r : Rule} {p : ParserSt} {s : Sink}
    {b : Bool} {p' : ParserSt} {s' : Sink} (h : parseTx f r p s = some (b, p', s')) :
    s.log.length ≤ s'.log.length := by
  obtain ⟨Δ, hΔ, -⟩ := (parseTx_inv f _ _ _ _ _ _ h).1.log
  rw [hΔ]
  simp

/-- Lift a determinism fact taken at the sub-call's own sinks to a pair of
outer base offsets that the two logs already agree beyond. -/
theorem det_shift {f : Nat} {r : Rule} {q : ParserSt} {t₁ t₂ : Sink} {n₁ n₂ : Nat}
    (hagree : t₁.log.drop n₁ = t₂.log.drop n₂)
    (hn₁ : n₁ ≤ t₁.log.length) (hn₂ : n₂ ≤ t₂.log.length)
    (hdet : runView t₁.log.length (parseTx f r q t₁) =
      runView t₂.log.length (parseTx f r q t₂)) :
    runView n₁ (parseTx f r q t₁) = runView n₂ (parseTx f r q t₂) := by
  rcases det_elim hdet with ⟨h1, h2⟩ | ⟨b, q', u₁, u₂, h1, h2, hdrop⟩
  · rw [h1, h2]
    rfl
  · obtain ⟨Δ₁, hΔ₁, -⟩ := (parseTx_inv f _ _ _ _ _ _ h1).1.log
    obtain ⟨Δ₂, hΔ₂, -⟩ := (parseTx_inv f _ _ _ _ _ _ h2).1.log
    have hΔ : Δ₁ = Δ₂ := by
      have e₁ : u₁.log.drop t₁.log.length = Δ₁ := by rw [hΔ₁, List.drop_left]
      have e₂ : u₂.log.drop t₂.log.length = Δ₂ := by rw [hΔ₂, List.drop_left]
      rw [e₁, e₂] at hdrop
      exact hdrop
    rw [h1, h2]
    simp only [runView, Option.map_some', Option.some.injEq, Prod.mk.injEq, true_and]
    rw [hΔ₁, hΔ₂, List.drop_append_of_le_length hn₁,
      List.drop_append_of_le_length hn₂, hagree, hΔ]

theorem primParse_det (p : ParserSt) (s₁ s₂ : Sink) :
    (primParse p s₁).1 = (primParse p s₂).1 ∧
      (primParse p s₁).2.1 = (primParse p s₂).2.1 ∧
      (primParse p s₁).2.2.log.drop s₁.log.length =
        (primParse p s₂).2.2.log.drop s₂.log.length := by
  cases hrem : remaining p with
  | nil =>
    rw [primParse_of_nil s₁ hrem, primParse_of_nil s₂ hrem]
    simp [List.drop_length]
  | cons c rest =>
    by_cases hc : isAsciiDigit c
    · have hpre : [c].isPrefixOf (remaining p) = true := by
        rw [hrem]; exact isPrefixOf_append [c] rest
      rw [primParse_digit_eat s₁ hrem hc, primParse_digit_eat s₂ hrem hc,
        eat_eq_true s₁ hpre, eat_eq_true s₂ hpre]
      simp [List.drop_left]
    · rw [primParse_of_nondigit s₁ hrem (by simpa using hc),
        primParse_of_nondigit s₂ hrem (by simpa using hc)]
      simp [List.drop_length]

theorem seqParse_det {f : Nat} (hdet : TxDet f) (r1 : Rule) (tok : List Char)
    (r2 : Rule) (p : ParserSt) (s₁ s₂ : Sink) :
    runView s₁.log.length
        (seqParse (fun r' p' s' => parseTx f r' p' s') r1 tok r2 p s₁) =
      runView s₂.log.length
        (seqParse (fun r' p' s' => parseTx f r' p' s') r1 tok r2 p s₂) := by
  rcases det_elim (hdet r1 p s₁ s₂) with ⟨h1, h2⟩ | ⟨b1, q1, t₁, t₂, h1, h2, hdrop⟩
  · rw [seqParse_none tok r2 h1, seqParse_none tok r2 h2]
    rfl
  · have hlen₁ : s₁.log.length ≤ t₁.log.length := parseTx_log_len h1
    have hlen₂ : s₂.log.length ≤ t₂.log.length := parseTx_log_len h2
    cases b1 with
    | false =>
      rw [seqParse_fst_false tok r2 h1, seqParse_fst_false tok r2 h2]
      simp only [runView, Option.map_some', Option.some.injEq, Prod.mk.injEq, true_and]
      exact hdrop
    | true =>
      cases hpre : tok.isPrefixOf (remaining q1) with
      | false =>
        rw [seqParse_eat_false r2 h1 (eat_eq_false t₁ hpre),
          seqParse_eat_false r2 h2 (eat_eq_false t₂ hpre)]
        simp only [runView, Option.map_some', Option.some.injEq, Prod.mk.injEq, true_and]
        exact hdrop
      | true =>
        rw [seqParse_eat_true r2 h1 (eat_eq_true t₁ hpre),
          seqParse_eat_true r2 h2 (eat_eq_true t₂ hpre)]
        apply det_shift
        · show (Sink.mk (t₁.log ++ [Event.consume tok]) t₁.memo).log.drop s₁.log.length =
            (Sink.mk (t₂.log ++ [Event.consume tok]) t₂.memo).log.drop s₂.log.length
          rw [show (Sink.mk (t₁.log ++ [Event.consume tok]) t₁.memo).log =
            t₁.log ++ [Event.consume tok] from rfl]
          rw [show (Sink.mk (t₂.log ++ [Event.consume tok]) t₂.memo).log =
            t₂.log ++ [Event.consume tok] from rfl]
          rw [List.drop_append_of_le_length hlen₁,
            List.drop_append_of_le_length hlen₂, hdrop]
        · show s₁.log.length ≤ (t₁.log ++ [Event.consume tok]).length
          simp
          omega
        · show s₂.log.length ≤ (t₂.log ++ [Event.consume tok]).length
          simp
          omega
        · exact hdet r2 _ _ _

theorem altParse_det {f : Nat} (hdet : TxDet f) (r1 r2 : Rule)
    (p : ParserSt) (s₁ s₂ : Sink) :
    runView s₁.log.length
        (altParse (fun r' p' s' => parseTx f r' p' s') r1 r2 p s₁) =
      runView s₂.log.length
        (altParse (fun r' p' s' => parseTx f r' p' s') r1 r2 p s₂) := by
  rcases det_elim (hdet r1 p s₁ s₂) with ⟨h1, h2⟩ | ⟨b1, q1, t₁, t₂, h1, h2, hdrop⟩
  · rw [altParse_none r2 h1, altParse_none r2 h2]
    rfl
  · have hlen₁ : s₁.log.length ≤ t₁.log.length := parseTx_log_len h1
    have hlen₂ : s₂.log.length ≤ t₂.log.length := parseTx_log_len h2
    cases b1 with
    | true =>
      rw [altParse_fst_true r2 h1, altParse_fst_true r2 h2]
      simp only [runView, Option.map_some', Option.some.injEq, Prod.mk.injEq, true_and]
      exact hdrop
    | false =>
      rw [altParse_fst_false r2 h1, altParse_fst_false r2 h2]
      exact det_shift hdrop hlen₁ hlen₂ (hdet r2 _ _ _)

theorem ruleDet_of_txDet {f : Nat} (hdet : TxDet f) : RuleDet f := by
  intro r p s₁ s₂
  cases r with
  | prim =>
    rw [ruleParse_prim, ruleParse_prim]
    obtain ⟨hb, hp, hl⟩ := primParse_det p s₁ s₂
    rcases hP1 : primParse p s₁ with ⟨b1, q1, t1⟩
    rcases hP2 : primParse p s₂ with ⟨b2, q2, t2⟩
    rw [hP1, hP2] at hb hp hl
    simp only [runView, Option.map_some', Option.some.injEq, Prod.mk.injEq]
    exact ⟨hb, hp, hl⟩
  | factor1 => exact seqParse_det hdet .prim ['*'] .factor p s₁ s₂
  | factor2 =>
    rw [ruleParse_factor2, ruleParse_factor2]
    exact hdet .prim p s₁ s₂
  | factor => exact altParse_det hdet .factor1 .factor2 p s₁ s₂
  | term1 => exact seqParse_det hdet .factor ['+'] .term p s₁ s₂
  | term2 =>
    rw [ruleParse_term2, ruleParse_term2]
    exact hdet .factor p s₁ s₂
  | term => exact altParse_det hdet .term1 .term2 p s₁ s₂

theorem ruleParse_log_len {f : Nat} {r : Rule} {p : ParserSt} {s : Sink}
    {b : Bool} {p' : ParserSt} {s' : Sink} (h : ruleParse f r p s = some (b, p', s')) :
    s.log.length ≤ s'.log.length := by
  obtain ⟨Δ, hΔ, -⟩ := (ruleParse_inv f _ _ _ _ _ _ h).1.log
  rw [hΔ]
  simp

theorem txDet_step {f : Nat} (hrd : RuleDet f) : TxDet (f + 1) := by
  intro r p s₁ s₂
  rw [parseTx_succ, parseTx_succ]
  rcases det_elim (hrd r p (sinkStart s₁ (ruleName r) p.position)
      (sinkStart s₂ (ruleName r) p.position))
    with ⟨h1, h2⟩ | ⟨b1, q1, t₁, t₂, h1, h2, hdrop⟩
  · rw [h1, h2]
    rfl
  · obtain ⟨Δ₁, hΔ₁, -⟩ := (ruleParse_inv f _ _ _ _ _ _ h1).1.log
    obtain ⟨Δ₂, hΔ₂, -⟩ := (ruleParse_inv f _ _ _ _ _ _ h2).1.log
    have hΔ : Δ₁ = Δ₂ := by
      have e₁ : t₁.log.drop (sinkStart s₁ (ruleName r) p.position).log.length = Δ₁ := by
        rw [hΔ₁, List.drop_left]
      have e₂ : t₂.log.drop (sinkStart s₂ (ruleName r) p.position).log.length = Δ₂ := by
        rw [hΔ₂, List.drop_left]
      rw [e₁, e₂] at hdrop
      exact hdrop
    have hstart₁ : (sinkStart s₁ (ruleName r) p.position).log =
      s₁.log ++ [Event.start (ruleName r) p.position] := rfl
    have hstart₂ : (sinkStart s₂ (ruleName r) p.position).log =
      s₂.log ++ [Event.start (ruleName r) p.position] := rfl
    cases b1 with
    | true =>
      rw [h1, h2]
      simp only [txWrap, runView, Option.map_some', Option.some.injEq, Prod.mk.injEq,
        true_and]
      have e₁ : (sinkCommit t₁).log.drop s₁.log.length =
          Event.start (ruleName r) p.position :: (Δ₁ ++ [Event.commit]) := by
        rw [show (sinkCommit t₁).log = t₁.log ++ [Event.commit] from rfl, hΔ₁, hstart₁]
        rw [show ((s₁.log ++ [Event.start (ruleName r) p.position]) ++ Δ₁) ++ [Event.commit] =
          s₁.log ++ (Event.start (ruleName r) p.position :: (Δ₁ ++ [Event.commit])) by simp]
        rw [List.drop_left]
      have e₂ : (sinkCommit t₂).log.drop s₂.log.length =
          Event.start (ruleName r) p.position :: (Δ₂ ++ [Event.commit]) := by
        rw [show (sinkCommit t₂).log = t₂.log ++ [Event.commit] from rfl, hΔ₂, hstart₂]
        rw [show ((s₂.log ++ [Event.start (ruleName r) p.position]) ++ Δ₂) ++ [Event.commit] =
          s₂.log ++ (Event.start (ruleName r) p.position :: (Δ₂ ++ [Event.commit])) by simp]
        rw [List.drop_left]
      rw [e₁, e₂, hΔ]
    | false =>
      rw [h1, h2]
      simp only [txWrap, runView, Option.map_some', Option.some.injEq, Prod.mk.injEq,
        true_and]
      have e₁ : (sinkAbort t₁).log.drop s₁.log.length =
          Event.start (ruleName r) p.position :: (Δ₁ ++ [Event.abort]) := by
        rw [show (sinkAbort t₁).log = t₁.log ++ [Event.abort] from rfl, hΔ₁, hstart₁]
        rw [show ((s₁.log ++ [Event.start (ruleName r) p.position]) ++ Δ₁) ++ [Event.abort] =
          s₁.log ++ (Event.start (ruleName r) p.position :: (Δ₁ ++ [Event.abort])) by simp]
        rw [List.drop_left]
      have e₂ : (sinkAbort t₂).log.drop s₂.log.length =
          Event.start (ruleName r) p.position :: (Δ₂ ++ [Event.abort]) := by
        rw [show (sinkAbort t₂).log = t₂.log ++ [Event.abort] from rfl, hΔ₂, hstart₂]
        rw [show ((s₂.log ++ [Event.start (ruleName r) p.position]) ++ Δ₂) ++ [Event.abort] =
          s₂.log ++ (Event.start (ruleName r) p.position :: (Δ₂ ++ [Event.abort])) by simp]
        rw [List.drop_left]
      rw [e₁, e₂, hΔ]

theorem parseTx_det : ∀ f, TxDet f := by
  intro f
  induction f with
  | zero => intro r p s₁ s₂; rfl
  | succ f ih => exact txDet_step (ruleDet_of_txDet ih)


/-! ### The claims -/

/-- C1: backtracking purity: whenever the transactional `Parser::parse`
returns false, the parser (input reference and cursor position) is restored
bit-for-bit to its pre-call snapshot, for every fuel, rule, parser state and
sink; only the event log records the failed attempt. -/
theorem parse_fail_restores_cursor (f : Nat) (r : Rule) (p : ParserSt)
    (s : Sink) (p' : ParserSt)
    (h : (parseTx f r p s).map (fun x => (x.1, x.2.1)) = some (false, p')) :
    p' = p := by
  cases ho : parseTx f r p s with
  | none => rw [ho] at h; cases h
  | some x =>
    obtain ⟨b, q, t⟩ := x
    rw [ho] at h
    simp only [Option.map_some', Option.some.injEq, Prod.mk.injEq] at h
    obtain ⟨hb, hq⟩ := h
    obtain ⟨-, -, hres⟩ := parseTx_inv f _ _ _ _ _ _ ho
    rw [← hq]
    exact hres hb

theorem parse_fail_restores_cursor_witness :
    ((parseTx 32 .term ⟨['*', '3'], 0⟩ sinkEmpty).map (fun x => (x.1, x.2.1)) =
      some (false, ⟨['*', '3'], 0⟩)) ∧
      (⟨['*', '3'], 0⟩ : ParserSt) = ⟨['*', '3'], 0⟩ :=
  ⟨by decide,
    parse_fail_restores_cursor 32 .term ⟨['*', '3'], 0⟩ sinkEmpty ⟨['*', '3'], 0⟩
      (by decide)⟩

/-- C2: `eat` specification: when the remaining input (the suffix from the
current position) starts with the token, it appends exactly one
`Consume{token}` event, advances the position by the token's byte length and
returns true; otherwise it returns false leaving both parser and sink
unchanged. -/
theorem eat_spec (p : ParserSt) (t : List Char) (s : Sink) :
    (t.isPrefixOf (remaining p) = true →
      eat p t s = (true, ⟨p.input, p.position + utf8Len t⟩,
        ⟨s.log ++ [Event.consume t], s.memo⟩)) ∧
    (t.isPrefixOf (remaining p) = false → eat p t s = (false, p, s)) :=
  ⟨fun h => eat_eq_true s h, fun h => eat_eq_false s h⟩

theorem eat_spec_witness :
    (['1'].isPrefixOf (remaining ⟨['1', '+', '2'], 0⟩) = true) ∧
      eat ⟨['1', '+', '2'], 0⟩ ['1'] sinkEmpty =
        (true, ⟨['1', '+', '2'], 0 + utf8Len ['1']⟩,
          ⟨sinkEmpty.log ++ [Event.consume ['1']], sinkEmpty.memo⟩) :=
  ⟨by decide, (eat_spec ⟨['1', '+', '2'], 0⟩ ['1'] sinkEmpty).1 (by decide)⟩

/-- C3: event-log well-nestedness: the log of any completed run started
from an empty sink passes the `nestOK` scan: each `Commit`/`Abort` closes
the nearest still-open `Start`, no `Commit`/`Abort` ever occurs with zero
open `Start`s, and the scan ends with every `Start` closed. -/
theorem log_well_nested (f : Nat) (r : Rule) (input : List Char) (pos : Nat) :
    Option.all (fun x => nestOK 0 x.2.2.log)
      (parseTx f r ⟨input, pos⟩ sinkEmpty) = true := by
  cases ho : parseTx f r ⟨input, pos⟩ sinkEmpty with
  | none => rfl
  | some x =>
    obtain ⟨b, p', s'⟩ := x
    obtain ⟨Δ, hΔ, hbal⟩ := (parseTx_inv f _ _ _ _ _ _ ho).1.log
    have hlog : s'.log = Δ := by simpa [sinkEmpty] using hΔ
    show nestOK 0 s'.log = true
    rw [hlog]
    exact nestOK_of_balanced hbal

/-- The `Consume` tokens of a log, in order. -/
def consumeTokens (l : List Event) : List (List Char) :=
  l.filterMap (fun e => match e with | Event.consume t => some t | _ => none)

/-- C4 counterexample: the run of "1*3" against `Term` does not log exactly
two `Consume` events: `eat("*", ..)` pushes a `Consume{"*"}` event just like
digit consumption does, and aborted first alternatives leave their `Consume`
events in the log before the retry re-logs them, so the log holds eight
`Consume` events, not two. -/
theorem term_one_star_three_consume_counterexample :
    (parseTx 32 .term ⟨['1', '*', '3'], 0⟩ sinkEmpty).map
        (fun x => (consumeTokens x.2.2.log).length) = some 8 ∧
      ¬ (parseTx 32 .term ⟨['1', '*', '3'], 0⟩ sinkEmpty).map
          (fun x => (consumeTokens x.2.2.log).length) = some 2 := by
  decide

/-- C4 amended: parsing "1*3" with `Term` returns true with final cursor
position 3 (full match), and the log's `Consume` events are exactly
"1", "*", "3", "3", "1", "*", "3", "3" in that order: the `*` checks done
via `eat` are logged as `Consume` events, and the aborted `Factor1`/`Term1`
attempts leave their consumptions in the log before the retried
alternatives re-log them. -/
theorem term_one_star_three_run :
    (parseTx 32 .term ⟨['1', '*', '3'], 0⟩ sinkEmpty).map
        (fun x => (x.1, x.2.1.position, consumeTokens x.2.2.log)) =
      some (true, 3,
        [['1'], ['*'], ['3'], ['3'], ['1'], ['*'], ['3'], ['3']]) := by
  decide

/-- C5: `start(name, position)` appends a `Start{name, position}` event at
the end of the log and points the memo entry for `(name, position)` at that
new entry's index, shadowing any earlier entry for the same key; and every
engine run preserves the executable invariant `memoInvB`: each present key
maps to the index of the most recent `Start` for that key, and the log entry
there is a `Start` with exactly that name and position. -/
theorem memo_maps_to_latest_start :
    (∀ (s : Sink) (n : String) (pos : Nat),
      (sinkStart s n pos).log = s.log ++ [Event.start n pos] ∧
        (sinkStart s n pos).memo = ((n, pos), s.log.length) :: s.memo ∧
        memoFind (sinkStart s n pos).memo (n, pos) = some s.log.length) ∧
    (∀ (f : Nat) (r : Rule) (p : ParserSt) (s : Sink), memoInvB s = true →
      Option.all (fun x => memoInvB x.2.2) (parseTx f r p s) = true) := by
  constructor
  · intro s n pos
    exact ⟨rfl, rfl, memoFind_cons_self _ _ _⟩
  · intro f r p s hs
    cases ho : parseTx f r p s with
    | none => rfl
    | some x =>
      obtain ⟨b, p', s'⟩ := x
      show memoInvB s' = true
      rw [memoInvB_iff]
      exact (parseTx_inv f _ _ _ _ _ _ ho).1.memo ((memoInvB_iff s).mp hs)

theorem memo_maps_to_latest_start_witness :
    memoInvB sinkEmpty = true ∧
      Option.all (fun x => memoInvB x.2.2)
        (parseTx 8 .term ⟨['1'], 0⟩ sinkEmpty) = true :=
  ⟨by decide, memo_maps_to_latest_start.2 8 .term ⟨['1'], 0⟩ sinkEmpty (by decide)⟩

/-- C6: a non-match is reported as false with no net cursor advancement:
"*3" against `Term` returns false at position 0 (the digit rule fails
immediately on `*`), and the empty input also returns false at position 0. -/
theorem mismatch_returns_false_at_zero :
    (parseTx 32 .term ⟨['*', '3'], 0⟩ sinkEmpty).map
        (fun x => (x.1, x.2.1.position)) = some (false, 0) ∧
      (parseTx 32 .term ⟨[], 0⟩ sinkEmpty).map
        (fun x => (x.1, x.2.1.position)) = some (false, 0) := by
  decide

/-- C7: parsing "12" with `Term` returns true but consumes only the first
digit, leaving the final position at 1 — a partial match the engine itself
does not flag. -/
theorem twelve_partial_match :
    (parseTx 32 .term ⟨['1', '2'], 0⟩ sinkEmpty).map
      (fun x => (x.1, x.2.1.position)) = some (true, 1) := by
  decide

/-- C8: every engine operation keeps the cursor on a character boundary of
the input and within its byte length, so `remaining`'s slice is always
well-defined: `eat` preserves `ValidPos`, and every completed `parseTx` run
from a valid position ends at a valid position that is at most the input's
byte length, where `byteSuffix` (the slice) cannot fail. -/
theorem position_stays_valid :
    (∀ (p : ParserSt) (t : List Char) (s : Sink), ValidPos p.input p.position →
      ValidPos (eat p t s).2.1.input (eat p t s).2.1.position) ∧
    (∀ (f : Nat) (r : Rule) (p : ParserSt) (s : Sink) (b : Bool) (p' : ParserSt),
      ValidPos p.input p.position →
      (parseTx f r p s).map (fun x => (x.1, x.2.1)) = some (b, p') →
      ValidPos p'.input p'.position ∧ p'.position ≤ utf8Len p'.input ∧
        byteSuffix p'.input p'.position ≠ none) := by
  constructor
  · intro p t s hv
    exact eat_valid t s hv
  · intro f r p s b p' hv h
    cases ho : parseTx f r p s with
    | none => rw [ho] at h; cases h
    | some x =>
      obtain ⟨b1, q, t⟩ := x
      rw [ho] at h
      simp only [Option.map_some', Option.some.injEq, Prod.mk.injEq] at h
      obtain ⟨-, hq⟩ := h
      have hinv := (parseTx_inv f _ _ _ _ _ _ ho).1
      have hvalid : ValidPos p'.input p'.position := by
        rw [← hq]
        exact hinv.valid hv
      refine ⟨hvalid, validPos_le hvalid, ?_⟩
      intro hnone
      rw [ValidPos, hnone] at hvalid
      simp at hvalid

theorem position_stays_valid_witness :
    ValidPos ['1', '*', '3'] 0 ∧
      ((parseTx 32 .term ⟨['1', '*', '3'], 0⟩ sinkEmpty).map
        (fun x => (x.1, x.2.1)) = some (true, ⟨['1', '*', '3'], 3⟩)) ∧
      (ValidPos ['1', '*', '3'] 3 ∧ 3 ≤ utf8Len ['1', '*', '3'] ∧
        byteSuffix ['1', '*', '3'] 3 ≠ none) :=
  ⟨by decide, by decide,
    position_stays_valid.2 32 .term ⟨['1', '*', '3'], 0⟩ sinkEmpty true
      ⟨['1', '*', '3'], 3⟩ (by decide) (by decide)⟩

/-- C9: termination with fuel linear in the input length: for every finite
input, the top-level `Term` parse completes (returns `some`) with
`2·byteLength + 8` fuel — every `+`/`*` recursion first consumes at least
two bytes, so the recursion depth is bounded linearly by the input length. -/
theorem term_parse_terminates (input : List Char) :
    (parseTx (2 * utf8Len input + 8) .term ⟨input, 0⟩ sinkEmpty).isSome = true :=
  parseTx_term_isSome (utf8Len input) ⟨input, 0⟩ sinkEmpty _ (Nat.zero_le _)
    (by simp) (Nat.le_refl _)

/-- C10: the engine is deterministic and the sink never influences parsing
decisions: runs from any two initial sinks agree on the boolean result, the
final parser, and the appended log events (`runView`), and in particular two
separate runs of `Term` from a fresh parser at position 0 and an empty sink
are identical in result, final position, and event log. -/
theorem parse_deterministic :
    (∀ (f : Nat) (r : Rule) (p : ParserSt) (s₁ s₂ : Sink),
      runView s₁.log.length (parseTx f r p s₁) =
        runView s₂.log.length (parseTx f r p s₂)) ∧
    (∀ (input : List Char) (f : Nat) (o₁ o₂ : Option (Bool × ParserSt × Sink)),
      o₁ = parseTx f .term ⟨input, 0⟩ sinkEmpty →
      o₂ = parseTx f .term ⟨input, 0⟩ sinkEmpty → o₁ = o₂) := by
  constructor
  · exact fun f r p s₁ s₂ => parseTx_det f r p s₁ s₂
  · intro input f o₁ o₂ h₁ h₂
    rw [h₁, h₂]

theorem parse_deterministic_witness :
    parseTx 8 .term ⟨['1'], 0⟩ sinkEmpty = parseTx 8 .term ⟨['1'], 0⟩ sinkEmpty :=
  parse_deterministic.2 ['1'] 8 _ _ rfl rfl
